import Mathlib

/-!
Verification of the screeps-async cooperative scheduler, shallowly embedded
from `src/screeps-async/src/runtime.rs`.

The runtime keeps a FIFO channel of scheduled runnables and a
`BTreeMap<u32, Vec<Option<Waker>>>` of cycle-indexed wakers.  `run()` first
drains every timer entry whose key is at most the current game time (waking
the non-tombstoned wakers, which pushes their tasks onto the channel), then
pops and runs tasks from the channel while the host-reported used time stays
within the configured allocation.

Modelling choices:
* tasks are identified by natural numbers; the channel is a `List Nat`;
* the B-tree is a key-sorted association list (`SortedKeys` states the
  strictly-ascending-keys invariant of `BTreeMap`);
* an `f64` is modelled as either NaN or a rational (`F64`), with IEEE
  comparison semantics (any comparison with NaN is false);
* the host queries `game_time` and `time_used` are oracles: the game time is
  a parameter read once per `run()`, the used-time readings are a stream
  indexed by how many readings were taken so far in this `run()`;
* running task `r` abstracts the effect of polling its future as `eff r`,
  the list of tasks it wakes (pushed onto the channel in order);
* the poll loop, a `while` in the source, is given explicit fuel; the
  theorems below are independent of any sufficiently large fuel.
-/

/-- Model of an `f64` as far as this runtime inspects one: NaN or a finite
rational value. -/
inductive F64 where
  | nan : F64
  | finite : ℚ → F64
  deriving DecidableEq

/-- IEEE `<=` on modelled doubles: false whenever NaN is involved. -/
def F64.le : F64 → F64 → Bool
  | .finite x, .finite y => decide (x ≤ y)
  | .nan, _ => false
  | .finite _, .nan => false

/-- IEEE `<` on modelled doubles: false whenever NaN is involved. -/
def F64.lt : F64 → F64 → Bool
  | .finite x, .finite y => decide (x < y)
  | .nan, _ => false
  | .finite _, .nan => false

/-- Configuration options for the runtime (`Config` in runtime.rs). -/
structure Config where
  tick_time_allocation : F64
  deriving DecidableEq

/-- Default configuration: 90% of the tick CPU time (`Config::default`). -/
def Config.default : Config :=
  ⟨F64.finite (9 / 10)⟩

/-- Builder to construct a runtime (`Builder` in runtime.rs). -/
structure Builder where
  config : Config
  deriving DecidableEq

/-- Construct a new builder with default settings (`Builder::new`). -/
def Builder.new : Builder :=
  ⟨Config.default⟩

/-- Set what fraction of available CPU time the runtime may use per tick
(`Builder::tick_time_allocation`).  The value is stored unchanged, with no
validation. -/
def Builder.tick_time_allocation (b : Builder) (dur : F64) : Builder :=
  { b with config := { tick_time_allocation := dur } }

/-- Wakers are identified by the task they resume; a `none` slot is a
tombstone.  `TimerMap = BTreeMap<u32, Vec<Option<Waker>>>` in runtime.rs,
with the B-tree represented as a key-sorted association list. -/
abbrev TimerMap := List (Nat × List (Option Nat))

/-- Keys of the timers whose trigger time has arrived: the ascending key
list of the map is scanned with `take_while (t <= game_time)`, exactly as in
the drain phase of `ScreepsRuntime::run`. -/
def timersToFire (timers : TimerMap) (game_time : Nat) : List Nat :=
  (timers.map Prod.fst).takeWhile (fun k => decide (k ≤ game_time))

/-- Fire one due key (the body of the drain loop): if the key is still an
occupied entry, remove it from the map and wake every non-tombstoned waker
in insertion order; each wake pushes its task onto the scheduled channel. -/
def fireKey (st : TimerMap × List Nat) (k : Nat) : TimerMap × List Nat :=
  match List.lookup k st.1 with
  | some wakers => (st.1.eraseP (fun p => p.1 == k), st.2 ++ wakers.filterMap id)
  | none => st

/-- Drain phase of `ScreepsRuntime::run`: collect the due keys once, then
fire them left to right. -/
def drainTimers (game_time : Nat) (timers : TimerMap) (queue : List Nat) :
    TimerMap × List Nat :=
  (timersToFire timers game_time).foldl fireKey (timers, queue)

/-- Poll loop of `ScreepsRuntime::run`: while the used-time reading stays
within the allocation, pop a runnable off the channel and run it (running
task `r` pushes the tasks `eff r` it wakes).  `n` counts the readings taken
so far, `ran` accumulates the resumed tasks in order, and `fuel` bounds the
iterations of the embedding of the source's unbounded `while`. -/
def pollLoop (alloc : F64) (usage : Nat → F64) (eff : Nat → List Nat) :
    Nat → Nat → List Nat → List Nat → List Nat × List Nat
  | 0, _, queue, ran => (queue, ran)
  | fuel + 1, n, queue, ran =>
    if F64.le (usage n) alloc then
      match queue with
      | [] => (queue, ran)
      | r :: rest => pollLoop alloc usage eff fuel (n + 1) (rest ++ eff r) (ran ++ [r])
    else (queue, ran)

/-- State of the runtime: the receive side of the scheduled-task channel,
the timer map and the configuration (`ScreepsRuntime` in runtime.rs). -/
structure ScreepsRuntime where
  scheduled : List Nat
  timers : TimerMap
  config : Config
  deriving DecidableEq

/-- Run the executor for one game tick (`ScreepsRuntime::run`): read the
game time once, drain the due timers into the scheduled channel, then poll
tasks while time remains.  Returns the new runtime state together with the
list of tasks resumed, in resumption order. -/
def ScreepsRuntime.run (rt : ScreepsRuntime) (game_time : Nat)
    (usage : Nat → F64) (eff : Nat → List Nat) (fuel : Nat) :
    ScreepsRuntime × List Nat :=
  let drained := drainTimers game_time rt.timers rt.scheduled
  let polled := pollLoop rt.config.tick_time_allocation usage eff fuel 0 drained.2 []
  (⟨polled.1, drained.1, rt.config⟩, polled.2)

/-- Fatal error of the constructor (the panic in `ScreepsRuntime::new`). -/
inductive RuntimeError where
  | AlreadyRegistered : RuntimeError
  deriving DecidableEq

/-- The thread-local registration installed by the constructor
(`ThreadLocalRuntime` in runtime.rs: the send side of the channel and a
shared handle on the timer map, of which we keep the timer map). -/
structure ThreadLocalRuntime where
  timers : TimerMap
  deriving DecidableEq

/-- Model of `ScreepsRuntime::new`: with no live registration, install a
fresh one and return the runtime; with a live registration, panic with
`AlreadyRegistered`, leaving the registration untouched.  The result is the
`CURRENT` slot after the call together with the outcome. -/
def newRuntime (current : Option ThreadLocalRuntime) (config : Config) :
    Option ThreadLocalRuntime × Except RuntimeError ScreepsRuntime :=
  match current with
  | none => (some ⟨[]⟩, Except.ok ⟨[], [], config⟩)
  | some r => (some r, Except.error RuntimeError.AlreadyRegistered)

/-- Model of `impl Drop for ScreepsRuntime`: clears the `CURRENT`
registration unconditionally. -/
def dropRuntime (_current : Option ThreadLocalRuntime) :
    Option ThreadLocalRuntime :=
  none

/-- Build a runtime from a builder (`Builder::build` calls
`ScreepsRuntime::new`). -/
def Builder.build (b : Builder) (current : Option ThreadLocalRuntime) :
    Option ThreadLocalRuntime × Except RuntimeError ScreepsRuntime :=
  newRuntime current b.config

/-- Invariant of the `BTreeMap` representation: keys strictly ascending. -/
def SortedKeys (tm : TimerMap) : Prop :=
  List.Chain' (fun p q => p.1 < q.1) tm

/-- Executable check for `SortedKeys`. -/
def sortedKeysB : TimerMap → Bool
  | [] => true
  | [_] => true
  | p :: q :: rest => decide (p.1 < q.1) && sortedKeysB (q :: rest)

theorem sortedKeys_iff_b : ∀ tm : TimerMap, SortedKeys tm ↔ sortedKeysB tm = true
  | [] => by simp [SortedKeys, sortedKeysB]
  | [_] => by simp [SortedKeys, sortedKeysB]
  | p :: q :: rest => by
    rw [SortedKeys, List.chain'_cons]
    rw [show List.Chain' (fun p q => p.1 < q.1) (q :: rest) ↔
        sortedKeysB (q :: rest) = true from sortedKeys_iff_b (q :: rest)]
    simp [sortedKeysB]

instance (tm : TimerMap) : Decidable (SortedKeys tm) :=
  decidable_of_iff _ (sortedKeys_iff_b tm).symm

instance : IsTrans (Nat × List (Option Nat)) (fun p q => p.1 < q.1) :=
  ⟨fun _ _ _ h1 h2 => Nat.lt_trans h1 h2⟩

theorem sortedKeys_iff_pairwise {tm : TimerMap} :
    SortedKeys tm ↔ tm.Pairwise (fun p q => p.1 < q.1) :=
  List.chain'_iff_pairwise

theorem sortedKeys_of_sublist {tm1 tm2 : TimerMap}
    (hs : List.Sublist tm1 tm2) (h : SortedKeys tm2) : SortedKeys tm1 := by
  rw [sortedKeys_iff_pairwise] at h ⊢
  exact List.Pairwise.sublist hs h

theorem sortedKeys_tail {k : Nat} {v : List (Option Nat)} {rest : TimerMap}
    (h : SortedKeys ((k, v) :: rest)) : SortedKeys rest :=
  List.Chain'.tail h

theorem sortedKeys_head_lt {k : Nat} {v : List (Option Nat)} {rest : TimerMap}
    (h : SortedKeys ((k, v) :: rest)) : ∀ p ∈ rest, k < p.1 := by
  have hp := sortedKeys_iff_pairwise.mp h
  rw [List.pairwise_cons] at hp
  exact hp.1

/-- Characterization of the drain phase, for an arbitrary association list:
the entries scanned by `take_while` are removed and their non-tombstoned
wakers appended to the queue in order; the rest of the map is untouched. -/
theorem drainTimers_eq (t : Nat) (tm : TimerMap) (q : List Nat) :
    drainTimers t tm q =
      (tm.dropWhile (fun p => decide (p.1 ≤ t)),
        q ++ (tm.takeWhile (fun p => decide (p.1 ≤ t))).flatMap
          (fun p => p.2.filterMap id)) := by
  induction tm generalizing q with
  | nil => simp [drainTimers, timersToFire]
  | cons hd rest ih =>
    obtain ⟨k, v⟩ := hd
    by_cases hk : k ≤ t
    · have h1 : timersToFire ((k, v) :: rest) t = k :: timersToFire rest t := by
        simp [timersToFire, hk]
      have h2 : fireKey ((k, v) :: rest, q) k = (rest, q ++ v.filterMap id) := by
        simp [fireKey]
      have h3 : List.foldl fireKey (rest, q ++ v.filterMap id) (timersToFire rest t) =
          drainTimers t rest (q ++ v.filterMap id) := rfl
      rw [drainTimers, h1, List.foldl_cons, h2, h3, ih]
      simp [hk]
    · have h1 : timersToFire ((k, v) :: rest) t = [] := by
        simp [timersToFire, hk]
      rw [drainTimers, h1]
      simp [hk, List.foldl_nil]

/-- On a key-sorted map, the `take_while` scan of the drain phase reaches
exactly the entries with key ≤ t. -/
theorem takeWhile_eq_filter_of_sorted {t : Nat} {tm : TimerMap}
    (h : SortedKeys tm) :
    tm.takeWhile (fun p => decide (p.1 ≤ t)) =
      tm.filter (fun p => decide (p.1 ≤ t)) := by
  induction tm with
  | nil => rfl
  | cons hd rest ih =>
    obtain ⟨k, v⟩ := hd
    by_cases hk : k ≤ t
    · simp [hk, ih (sortedKeys_tail h)]
    · have hrest : List.filter (fun p => decide (p.1 ≤ t)) rest = [] := by
        rw [List.filter_eq_nil_iff]
        intro p hp
        have h1 := sortedKeys_head_lt h p hp
        simp only [decide_eq_true_eq]
        omega
      simp [hk, hrest]

/-- On a key-sorted map, the entries not reached by the `take_while` scan
are exactly those with key > t. -/
theorem dropWhile_eq_filter_of_sorted {t : Nat} {tm : TimerMap}
    (h : SortedKeys tm) :
    tm.dropWhile (fun p => decide (p.1 ≤ t)) =
      tm.filter (fun p => decide (t < p.1)) := by
  induction tm with
  | nil => rfl
  | cons hd rest ih =>
    obtain ⟨k, v⟩ := hd
    by_cases hk : k ≤ t
    · have hk2 : ¬ t < k := by omega
      simp [hk, hk2, ih (sortedKeys_tail h)]
    · have hrest : List.filter (fun p => decide (t < p.1)) rest = rest := by
        rw [List.filter_eq_self]
        intro p hp
        have h1 := sortedKeys_head_lt h p hp
        simp only [decide_eq_true_eq]
        omega
      simp [hk, Nat.lt_of_not_le hk, hrest]

/-- A lookup among entries whose keys all differ from k fails. -/
theorem lookup_none_of_ne {k : Nat} {l : TimerMap}
    (h : ∀ p ∈ l, p.1 ≠ k) : List.lookup k l = none := by
  induction l with
  | nil => rfl
  | cons hd rest ih =>
    obtain ⟨k1, v1⟩ := hd
    have h1 : k1 ≠ k := h (k1, v1) (List.mem_cons_self _ _)
    have h2 : (k == k1) = false := beq_eq_false_iff_ne.mpr fun he => h1 he.symm
    simp only [List.lookup, h2]
    exact ih fun p hp => h p (List.mem_cons_of_mem _ hp)

/-- A first basic fact about the poll loop: on an empty channel it stops at
once (after at most one usage reading), resuming nothing, for every fuel. -/
theorem pollLoop_nil (alloc : F64) (usage : Nat → F64) (eff : Nat → List Nat)
    (fuel n : Nat) (ran : List Nat) :
    pollLoop alloc usage eff fuel n [] ran = ([], ran) := by
  cases fuel with
  | zero => rfl
  | succ f => cases h : F64.le (usage n) alloc <;> simp [pollLoop, h]

theorem le_eq_false_of_lt {a b : F64} (h : F64.lt a b = true) :
    F64.le b a = false := by
  cases a with
  | nan => cases b <;> simp [F64.le, F64.lt] at h ⊢
  | finite x =>
    cases b with
    | nan => simp [F64.lt] at h
    | finite y =>
      simp only [F64.lt, decide_eq_true_eq] at h
      simp only [F64.le, decide_eq_false_iff_not]
      exact not_le.mpr h

/-- When every usage reading stays within the allocation and the resumed
tasks wake nothing, the poll loop empties the channel in FIFO order, given
fuel beyond the channel length. -/
theorem pollLoop_runs_all (alloc : F64) (usage : Nat → F64)
    (eff : Nat → List Nat)
    (husage : ∀ m, F64.le (usage m) alloc = true) (heff : ∀ r, eff r = []) :
    ∀ fuel n queue ran, queue.length < fuel →
      pollLoop alloc usage eff fuel n queue ran = ([], ran ++ queue) := by
  intro fuel
  induction fuel with
  | zero => intro n queue ran hlen; omega
  | succ f ih =>
    intro n queue ran hlen
    cases queue with
    | nil => simp [pollLoop, husage n]
    | cons r rest =>
      have hstep := ih (n + 1) rest (ran ++ [r]) (by simp at hlen ⊢; omega)
      simp [pollLoop, husage n, heff r, hstep]

/-- Once some usage reading falls outside the allocation, the poll loop
stops within that many iterations: its result is the same for every fuel
beyond the bound (the loop terminates despite the fuel in the embedding). -/
theorem pollLoop_stable (alloc : F64) (usage : Nat → F64)
    (eff : Nat → List Nat) :
    ∀ k n queue ran fuel, F64.le (usage (n + k)) alloc = false →
      k + 1 ≤ fuel →
      pollLoop alloc usage eff fuel n queue ran =
        pollLoop alloc usage eff (k + 1) n queue ran := by
  intro k
  induction k with
  | zero =>
    intro n queue ran fuel hu hf
    obtain ⟨f, rfl⟩ : ∃ f, fuel = f + 1 := ⟨fuel - 1, by omega⟩
    rw [Nat.add_zero] at hu
    simp [pollLoop, hu]
  | succ k ih =>
    intro n queue ran fuel hu hf
    obtain ⟨f, rfl⟩ : ∃ f, fuel = f + 1 := ⟨fuel - 1, by omega⟩
    cases hle : F64.le (usage n) alloc with
    | false => simp [pollLoop, hle]
    | true =>
      cases queue with
      | nil => simp [pollLoop, hle]
      | cons r rest =>
        have hu2 : F64.le (usage ((n + 1) + k)) alloc = false := by
          rw [show (n + 1) + k = n + (k + 1) by omega]
          exact hu
        have hstep := ih (n + 1) (rest ++ eff r) (ran ++ [r]) f hu2 (by omega)
        simp [pollLoop, hle, hstep]

/-- Budget respect (claim C1): if the usage reading exceeds the configured
budget fraction at the start of an iteration of the inner loop of run(),
then no further computation is taken from the scheduled channel or resumed
during that call, and the channel contents are left intact for the next
cycle.  Stated at an arbitrary loop iteration (reading index n, current
channel and resumed list), for every fuel. -/
theorem budget_respected (alloc : F64) (usage : Nat → F64)
    (eff : Nat → List Nat) (fuel n : Nat) (queue ran : List Nat)
    (h : F64.lt alloc (usage n) = true) :
    pollLoop alloc usage eff fuel n queue ran = (queue, ran) := by
  have hle : F64.le (usage n) alloc = false := le_eq_false_of_lt h
  cases fuel with
  | zero => rfl
  | succ f => simp [pollLoop, hle]

theorem budget_respected_witness :
    F64.lt (F64.finite 0) (F64.finite 1) = true ∧
    pollLoop (F64.finite 0) (fun _ => F64.finite 1) (fun _ => []) 5 0
      [7, 8] [] = ([7, 8], []) :=
  ⟨by decide,
    budget_respected (F64.finite 0) (fun _ => F64.finite 1)
      (fun _ => []) 5 0 [7, 8] [] (by decide)⟩

/-- Timer-drain phase (claim C2): a run() at game time t, read once at the
start, first removes every timer entry with key ≤ t — keys in ascending
order, the non-tombstoned wakers of each entry fired in insertion order —
and appends the woken tasks to the scheduled channel before the poll loop
starts consuming it, so they are eligible to run in the same tick. -/
theorem timer_drain_phase (tm : TimerMap) (queue : List Nat) (cfg : Config)
    (t : Nat) (usage : Nat → F64) (eff : Nat → List Nat) (fuel : Nat)
    (h : SortedKeys tm) :
    ScreepsRuntime.run ⟨queue, tm, cfg⟩ t usage eff fuel =
      (let fired := (tm.filter (fun p => decide (p.1 ≤ t))).flatMap
          (fun p => p.2.filterMap id)
       let polled := pollLoop cfg.tick_time_allocation usage eff fuel 0
          (queue ++ fired) []
       (⟨polled.1, tm.filter (fun p => decide (t < p.1)), cfg⟩, polled.2)) := by
  simp only [ScreepsRuntime.run, drainTimers_eq,
    dropWhile_eq_filter_of_sorted h, takeWhile_eq_filter_of_sorted h]

theorem timer_drain_phase_witness :
    SortedKeys [(1, [some 10, none, some 11]), (3, [some 12]), (5, [none])] ∧
    ScreepsRuntime.run
      ⟨[9], [(1, [some 10, none, some 11]), (3, [some 12]), (5, [none])],
        ⟨F64.finite (9 / 10)⟩⟩ 3 (fun _ => F64.nan) (fun _ => []) 4 =
      (⟨[9, 10, 11, 12], [(5, [none])], ⟨F64.finite (9 / 10)⟩⟩, []) := by
  refine ⟨by decide, ?_⟩
  rw [timer_drain_phase _ _ _ _ _ _ _ (by decide)]
  rfl

/-- Single-registration invariant (claim C3): constructing a runtime while a
registration is live fails fatally with AlreadyRegistered and leaves the
live registration unchanged; dropping the live runtime clears the
process-wide registration, after which construction succeeds. -/
theorem single_registration (r : ThreadLocalRuntime) (cfg cfg2 : Config)
    (cur : Option ThreadLocalRuntime) :
    newRuntime (some r) cfg =
      (some r, Except.error RuntimeError.AlreadyRegistered) ∧
    dropRuntime cur = none ∧
    newRuntime (dropRuntime cur) cfg2 =
      (some ⟨[]⟩, Except.ok ⟨[], [], cfg2⟩) :=
  ⟨rfl, rfl, rfl⟩

/-- At-most-once wake (claim C4): the drain pass removes each due entry from
the map before waking it, so after a drain at game time t no key ≤ t remains
(any such lookup fails), and a later drain at any time t2 ≥ t wakes only
wakers of entries whose key lies strictly above t — a registration fired at
time t is never fired again, no matter how often run() is called. -/
theorem at_most_once_wake (tm : TimerMap) (q q2 : List Nat) (t t2 : Nat)
    (h : SortedKeys tm) (ht : t ≤ t2) :
    (∀ k, k ≤ t → List.lookup k (drainTimers t tm q).1 = none) ∧
    (drainTimers t2 (drainTimers t tm q).1 q2).2 =
      q2 ++ (tm.filter (fun p => decide (p.1 ≤ t2) && decide (t < p.1))).flatMap
        (fun p => p.2.filterMap id) := by
  have h1 : (drainTimers t tm q).1 = tm.filter (fun p => decide (t < p.1)) := by
    rw [drainTimers_eq, dropWhile_eq_filter_of_sorted h]
  have hsf : SortedKeys (tm.filter (fun p => decide (t < p.1))) :=
    sortedKeys_of_sublist (List.filter_sublist tm) h
  constructor
  · intro k hk
    rw [h1]
    refine lookup_none_of_ne ?_
    intro p hp
    have h2 := (List.mem_filter.mp hp).2
    simp only [decide_eq_true_eq] at h2
    omega
  · rw [h1, drainTimers_eq]
    simp only [takeWhile_eq_filter_of_sorted hsf, List.filter_filter]

theorem at_most_once_wake_witness :
    (drainTimers 4 (drainTimers 2 [(2, [some 20]), (4, [some 21])] []).1 [1]).2 =
      [1, 21] := by
  have h := (at_most_once_wake [(2, [some 20]), (4, [some 21])] [] [1] 2 4
    (by decide) (by decide)).2
  rw [h]
  rfl

/-- No early wake and frame condition (claim C5): the drain pass of a run()
at game time t keeps exactly the entries with key > t, each one unchanged —
in particular a waker registered under a target cycle T > t is still
registered, untouched — and appends to the channel only wakers of entries
with key ≤ t, so nothing parked past the current cycle is woken. -/
theorem no_early_wake (tm : TimerMap) (q : List Nat) (t T : Nat)
    (ws : List (Option Nat)) (h : SortedKeys tm) (hT : t < T)
    (hmem : (T, ws) ∈ tm) :
    (drainTimers t tm q).1 = tm.filter (fun p => decide (t < p.1)) ∧
    (T, ws) ∈ (drainTimers t tm q).1 ∧
    (drainTimers t tm q).2 =
      q ++ (tm.filter (fun p => decide (p.1 ≤ t))).flatMap
        (fun p => p.2.filterMap id) := by
  have h1 : (drainTimers t tm q).1 = tm.filter (fun p => decide (t < p.1)) := by
    rw [drainTimers_eq, dropWhile_eq_filter_of_sorted h]
  refine ⟨h1, ?_, ?_⟩
  · rw [h1]
    exact List.mem_filter.mpr ⟨hmem, by simpa using hT⟩
  · rw [drainTimers_eq]
    simp only [takeWhile_eq_filter_of_sorted h]

theorem no_early_wake_witness :
    (6, [some 30]) ∈ (drainTimers 5 [(6, [some 30])] []).1 :=
  (no_early_wake [(6, [some 30])] [] 5 6 [some 30]
    (by decide) (by decide) (by decide)).2.1

/-- FIFO resumption order (claim C6): when every usage reading stays within
the allocation, the resumed tasks wake nothing new, and the fuel covers the
channel, one run() resumes, in order, exactly the already-scheduled tasks
followed by the tasks woken by this same call's timer drain — strict FIFO
order of the scheduled channel — and leaves the channel empty. -/
theorem fifo_resumption (tm : TimerMap) (queue : List Nat) (cfg : Config)
    (t : Nat) (usage : Nat → F64) (eff : Nat → List Nat) (fuel : Nat)
    (husage : ∀ m, F64.le (usage m) cfg.tick_time_allocation = true)
    (heff : ∀ r, eff r = [])
    (hfuel : (queue ++ (tm.takeWhile (fun p => decide (p.1 ≤ t))).flatMap
        (fun p => p.2.filterMap id)).length < fuel) :
    (ScreepsRuntime.run ⟨queue, tm, cfg⟩ t usage eff fuel).2 =
      queue ++ (tm.takeWhile (fun p => decide (p.1 ≤ t))).flatMap
        (fun p => p.2.filterMap id) ∧
    (ScreepsRuntime.run ⟨queue, tm, cfg⟩ t usage eff fuel).1.scheduled = [] := by
  have hrun := pollLoop_runs_all cfg.tick_time_allocation usage eff husage heff
    fuel 0 (queue ++ (tm.takeWhile (fun p => decide (p.1 ≤ t))).flatMap
      (fun p => p.2.filterMap id)) [] hfuel
  constructor
  · simp only [ScreepsRuntime.run, drainTimers_eq, hrun]
    simp
  · simp only [ScreepsRuntime.run, drainTimers_eq, hrun]

theorem fifo_resumption_witness :
    (ScreepsRuntime.run ⟨[1, 2, 3], [], ⟨F64.finite 1⟩⟩ 0
      (fun _ => F64.finite 0) (fun _ => []) 4).2 = [1, 2, 3] := by
  have h := (fifo_resumption [] [1, 2, 3] ⟨F64.finite 1⟩ 0
    (fun _ => F64.finite 0) (fun _ => []) 4
    (fun m => by show F64.le (F64.finite 0) (F64.finite 1) = true; decide)
    (fun r => rfl) (by decide)).1
  rw [h]
  rfl

/-- Run never fails (claim C7): the embedding of run() maps every runtime
state (any timer map, any channel, any budget, any usage stream) to a plain
result state — there is no error outcome — and as soon as some usage reading
N falls outside the allocation the result no longer depends on the fuel: the
poll loop performs at most N iterations, so run() returns normally as a
best-effort scheduling pass. -/
theorem run_total (rt : ScreepsRuntime) (t : Nat) (usage : Nat → F64)
    (eff : Nat → List Nat) (N fuel : Nat)
    (hu : F64.le (usage N) rt.config.tick_time_allocation = false)
    (hf : N + 1 ≤ fuel) :
    ScreepsRuntime.run rt t usage eff fuel =
      ScreepsRuntime.run rt t usage eff (N + 1) := by
  have hP := pollLoop_stable rt.config.tick_time_allocation usage eff N 0
    (drainTimers t rt.timers rt.scheduled).2 [] fuel (by simpa using hu) hf
  simp only [ScreepsRuntime.run, hP]

theorem run_total_witness :
    ScreepsRuntime.run ⟨[5], [], ⟨F64.finite 0⟩⟩ 0 (fun _ => F64.finite 1)
      (fun _ => []) 3 =
      ScreepsRuntime.run ⟨[5], [], ⟨F64.finite 0⟩⟩ 0 (fun _ => F64.finite 1)
        (fun _ => []) 1 :=
  run_total ⟨[5], [], ⟨F64.finite 0⟩⟩ 0 (fun _ => F64.finite 1)
    (fun _ => []) 0 3 (by decide) (by decide)

/-- Idle no-op (claim C8): a run() whose scheduled channel is empty and
whose timer map has no entry due (every key strictly above the game time)
resumes nothing and leaves the whole state unchanged, for every fuel and
every usage stream — the inner loop exits as soon as the first pop finds the
channel empty, with no busy-waiting. -/
theorem idle_noop (tm : TimerMap) (cfg : Config) (t : Nat)
    (usage : Nat → F64) (eff : Nat → List Nat) (fuel : Nat)
    (hdue : ∀ p ∈ tm, t < p.1) :
    ScreepsRuntime.run ⟨[], tm, cfg⟩ t usage eff fuel = (⟨[], tm, cfg⟩, []) := by
  have hdrop : tm.dropWhile (fun p => decide (p.1 ≤ t)) = tm := by
    cases tm with
    | nil => rfl
    | cons hd rest =>
      have h1 := hdue hd (List.mem_cons_self _ _)
      have h2 : ¬ hd.1 ≤ t := by omega
      simp [h2]
  have htake : tm.takeWhile (fun p => decide (p.1 ≤ t)) = [] := by
    cases tm with
    | nil => rfl
    | cons hd rest =>
      have h1 := hdue hd (List.mem_cons_self _ _)
      have h2 : ¬ hd.1 ≤ t := by omega
      simp [h2]
  simp [ScreepsRuntime.run, drainTimers_eq, hdrop, htake, pollLoop_nil]

theorem idle_noop_witness :
    ScreepsRuntime.run ⟨[], [(9, [some 2])], ⟨F64.finite 1⟩⟩ 8
      (fun _ => F64.finite 0) (fun _ => []) 7 =
      (⟨[], [(9, [some 2])], ⟨F64.finite 1⟩⟩, []) :=
  idle_noop [(9, [some 2])] ⟨F64.finite 1⟩ 8 (fun _ => F64.finite 0)
    (fun _ => []) 7 (by decide)

/-- Tombstones are harmless (claim C9): firing a due entry that contains
empty (tombstoned) slots wakes exactly its non-empty handles, in order — a
`none` slot contributes nothing and causes no failure — the entry itself is
removed, and the drain leaves the keys of the remaining registry still
strictly ascending. -/
theorem tombstones_harmless (tm : TimerMap) (q q2 : List Nat) (k t : Nat)
    (ws1 ws2 : List (Option Nat)) (h : SortedKeys tm)
    (hlk : List.lookup k tm = some (ws1 ++ none :: ws2)) :
    fireKey (tm, q) k =
      (tm.eraseP (fun p => p.1 == k), q ++ (ws1 ++ ws2).filterMap id) ∧
    SortedKeys (drainTimers t tm q2).1 := by
  constructor
  · simp only [fireKey, hlk]
    simp [List.filterMap_append, List.filterMap_cons]
  · rw [drainTimers_eq]
    exact sortedKeys_of_sublist (List.dropWhile_sublist _) h

theorem tombstones_harmless_witness :
    fireKey ([(3, [none, some 40])], [0]) 3 = ([], [0, 40]) := by
  have h := (tombstones_harmless [(3, [none, some 40])] [0] [] 3 3 []
    [some 40] (by decide) (by decide)).1
  rw [h]
  rfl

/-- No validation of the budget fraction (claim C10):
`Builder::tick_time_allocation` stores any double unchanged — including NaN,
zero, negative values and values above 1 — construction succeeds with every
such configuration whenever no runtime is registered (a live registration
being its only failure condition), and an out-of-range budget merely changes
the outcome of the usage comparison in the poll loop: with a NaN budget the
comparison is false for every reading. -/
theorem no_budget_validation (d : F64) (r : ThreadLocalRuntime) :
    (Builder.new.tick_time_allocation d).config.tick_time_allocation = d ∧
    newRuntime none ⟨d⟩ = (some ⟨[]⟩, Except.ok ⟨[], [], ⟨d⟩⟩) ∧
    (newRuntime (some r) ⟨d⟩).2 =
      Except.error RuntimeError.AlreadyRegistered ∧
    (∀ u : F64, F64.le u F64.nan = false) :=
  ⟨rfl, rfl, rfl, fun u => by cases u <;> rfl⟩
